import Mathlib

/-!
Verification development for the stract search-engine core.

The definitions below are a shallow embedding of the Rust sources:

* `crates/core/src/collector/top_docs.rs` — the de-duplicating bucket
  collector (`BucketCount`, `ScoredDoc`, `BucketCollector`,
  `into_sorted_vec`).
* `core/src/inverted_index.rs` — primary-image suppression in
  `retrieve_websites`, `merge_into_max_segments`, and `merge`.
* `crates/core/src/ampc/dht` — the shard state machine (the store itself is
  not part of the provided sources; it is modelled from the spec).

Machine floats (`f64` scores and penalties) are embedded as exact rational
numbers `ℚ`; machine integers (`u32`/`u64`/`u128` ids and hashes) as `Nat`.
The external `min_max_heap::MinMaxHeap` is modelled by its contract: a
multiset of elements from which `pop_max` removes a maximal element under
the element ordering and `peek_max_mut` grants in-place mutation of a
maximal element followed by re-sifting.
-/

/-- The five bucket keys carried per document
(`Hashes` in `collector/mod.rs`, constructed in `top_docs.rs`):
four 128-bit `Prehashed` keys plus the 64-bit simhash, embedded as `Nat`. -/
structure Hashes where
  site : Nat
  title : Nat
  url : Nat
  url_without_tld : Nat
  simhash : Nat
deriving DecidableEq, Repr

/-- `CollectorConfig` from `config/mod.rs`: four floating-point penalties and
the considered-document budget. -/
structure CollectorConfig where
  site_penalty : ℚ
  title_penalty : ℚ
  url_penalty : ℚ
  url_without_tld_penalty : ℚ
  max_docs_considered : Nat
deriving DecidableEq, Repr

/-- `SegmentDoc` from `top_docs.rs`: the document unit flowing through the
bucket collector.  `score` is `Score { total }`. -/
structure SegmentDoc where
  hashes : Hashes
  id : Nat
  segment : Nat
  score : ℚ
deriving DecidableEq, Repr

/-- `ScoredDoc<T>` from `top_docs.rs`: a document together with the adjusted
score the collector last computed for it. -/
structure ScoredDoc where
  doc : SegmentDoc
  adjusted_score : ℚ
deriving DecidableEq, Repr

/-- The `Ord` implementation for `ScoredDoc` (`top_docs.rs` lines 217-221):
`self.adjusted_score.total_cmp(&other.adjusted_score)` — it compares the
adjusted scores and nothing else.  On ordinary (non-NaN, signed-zero-free)
floats `total_cmp` is the numeric trichotomy, written out explicitly here. -/
def ScoredDoc.cmpAdj (a b : ScoredDoc) : Ordering :=
  if a.adjusted_score < b.adjusted_score then Ordering.lt
  else if a.adjusted_score = b.adjusted_score then Ordering.eq
  else Ordering.gt

/-- The empty bucket map of `BucketCount::new`: every key maps to count 0
(`buckets.get(&k).unwrap_or(&0)` makes absent keys read as 0). -/
def emptyCounts : Nat → Nat := fun _ => 0

/-- One `*buckets.entry(k).or_default() += 1` step on the bucket map. -/
def bumpKey (b : Nat → Nat) (k : Nat) : Nat → Nat :=
  fun q => if q = k then b q + 1 else b q

/-- `BucketCount::update_counts`: increment the bucket map at all four of the
taken document's prehashed keys (site, url, url-without-tld, title).  There
is no special case for a key equal to 0. -/
def updateCounts (b : Nat → Nat) (h : Hashes) : Nat → Nat :=
  bumpKey (bumpKey (bumpKey (bumpKey b h.site) h.url) h.url_without_tld) h.title

/-- The penalty sum `taken_sites·p_site + taken_urls·p_url +
taken_urls_without_tld·p_no_tld + taken_titles·p_title` read off the bucket
map in `BucketCount::adjust_score`. -/
def penaltySum (cfg : CollectorConfig) (b : Nat → Nat) (h : Hashes) : ℚ :=
  (b h.site : ℚ) * cfg.site_penalty + (b h.url : ℚ) * cfg.url_penalty
    + (b h.url_without_tld : ℚ) * cfg.url_without_tld_penalty
    + (b h.title : ℚ) * cfg.title_penalty

/-- `BucketCount::adjust_score`: `adjusted = score * (1 / (1 + penalty sum))`,
recomputed from the raw score every time. -/
def adjustScore (cfg : CollectorConfig) (b : Nat → Nat) (d : SegmentDoc) : ScoredDoc :=
  { doc := d, adjusted_score := d.score * (1 / (1 + penaltySum cfg b d.hashes)) }

theorem adjustScore_doc (cfg : CollectorConfig) (b : Nat → Nat) (d : SegmentDoc) :
    (adjustScore cfg b d).doc = d := rfl

/-- The bucket map after a sequence of taken documents, as maintained by
`into_sorted_vec` calling `update_counts` once per emitted document. -/
def countsAfter (taken : List Hashes) : Nat → Nat :=
  taken.foldl updateCounts emptyCounts

/-- How many of the four prehashed axes of `h` carry the key `k`. -/
def axisHits (h : Hashes) (k : Nat) : Nat :=
  (if h.site = k then 1 else 0) + (if h.url = k then 1 else 0)
    + (if h.url_without_tld = k then 1 else 0) + (if h.title = k then 1 else 0)

theorem bumpKey_apply (b : Nat → Nat) (k q : Nat) :
    bumpKey b k q = b q + (if q = k then 1 else 0) := by
  unfold bumpKey
  by_cases h : q = k <;> simp [h]

theorem updateCounts_apply (b : Nat → Nat) (h : Hashes) (k : Nat) :
    updateCounts b h k = b k + axisHits h k := by
  unfold updateCounts axisHits
  simp only [bumpKey_apply]
  split_ifs <;> omega

theorem countsAfter_apply (taken : List Hashes) (k : Nat) :
    countsAfter taken k = (taken.map (fun h => axisHits h k)).sum := by
  suffices H : ∀ (b : Nat → Nat),
      (taken.foldl updateCounts b) k = b k + (taken.map (fun h => axisHits h k)).sum by
    simpa [countsAfter, emptyCounts] using H emptyCounts
  induction taken with
  | nil => intro b; simp
  | cons h t ih =>
    intro b
    simp only [List.foldl_cons, List.map_cons, List.sum_cons]
    rw [ih, updateCounts_apply]
    omega

/-- Contract model of `MinMaxHeap::pop_max`: remove an element whose
adjusted score is maximal under `ScoredDoc`'s ordering (which compares
adjusted scores only); among equal maxima the heap's choice is unspecified
and the model takes the earliest. -/
def popMax : List ScoredDoc → Option (ScoredDoc × List ScoredDoc)
  | [] => none
  | d :: ds =>
    match popMax ds with
    | none => some (d, [])
    | some (m, rest) =>
      if m.adjusted_score ≤ d.adjusted_score then some (d, ds) else some (m, d :: rest)

theorem popMax_eq_none (l : List ScoredDoc) : popMax l = none → l = [] := by
  cases l with
  | nil => intro _; rfl
  | cons d ds =>
    intro h
    cases hd : popMax ds with
    | none => simp [popMax, hd] at h
    | some p =>
      obtain ⟨m, rest⟩ := p
      simp only [popMax, hd] at h
      split at h <;> simp at h

theorem popMax_spec (l : List ScoredDoc) (m : ScoredDoc) (rest : List ScoredDoc)
    (h : popMax l = some (m, rest)) :
    List.Perm l (m :: rest) ∧ ∀ x ∈ rest, x.adjusted_score ≤ m.adjusted_score := by
  induction l generalizing m rest with
  | nil => simp [popMax] at h
  | cons d ds ih =>
    cases hd : popMax ds with
    | none =>
      have hds : ds = [] := popMax_eq_none ds hd
      simp only [popMax, hd] at h
      obtain ⟨h1, h2⟩ := Prod.mk.injEq .. ▸ (Option.some.injEq .. ▸ h)
      subst h1
      subst h2
      subst hds
      exact ⟨List.Perm.refl _, by simp⟩
    | some p =>
      obtain ⟨m2, rest2⟩ := p
      simp only [popMax, hd] at h
      by_cases hc : m2.adjusted_score ≤ d.adjusted_score
      · rw [if_pos hc] at h
        obtain ⟨h1, h2⟩ := Prod.mk.injEq .. ▸ (Option.some.injEq .. ▸ h)
        subst h1
        subst h2
        refine ⟨List.Perm.refl _, ?_⟩
        intro x hx
        have hperm := (ih m2 rest2 hd).1
        have hmem := hperm.mem_iff.mp hx
        cases hmem with
        | head => exact hc
        | tail _ hmem2 => exact le_trans ((ih m2 rest2 hd).2 x hmem2) hc
      · rw [if_neg hc] at h
        obtain ⟨h1, h2⟩ := Prod.mk.injEq .. ▸ (Option.some.injEq .. ▸ h)
        subst h1
        subst h2
        constructor
        · exact List.Perm.trans ((ih _ _ hd).1.cons d) (List.Perm.swap _ d rest2)
        · intro x hx
          cases hx with
          | head => exact le_of_not_le hc
          | tail _ hmem2 => exact (ih _ _ hd).2 x hmem2

theorem popMax_perm (l : List ScoredDoc) (m : ScoredDoc) (rest : List ScoredDoc)
    (h : popMax l = some (m, rest)) : List.Perm l (m :: rest) :=
  (popMax_spec l m rest h).1

theorem popMax_le (l : List ScoredDoc) (m : ScoredDoc) (rest : List ScoredDoc)
    (h : popMax l = some (m, rest)) : ∀ x ∈ rest, x.adjusted_score ≤ m.adjusted_score :=
  (popMax_spec l m rest h).2

theorem popMax_mem (l : List ScoredDoc) (m : ScoredDoc) (rest : List ScoredDoc)
    (h : popMax l = some (m, rest)) : m ∈ l :=
  (popMax_perm l m rest h).symm.subset (List.mem_cons_self m rest)

theorem popMax_subset (l : List ScoredDoc) (m : ScoredDoc) (rest : List ScoredDoc)
    (h : popMax l = some (m, rest)) : ∀ x ∈ rest, x ∈ l := by
  intro x hx
  exact (popMax_perm l m rest h).symm.subset (List.mem_cons_of_mem m hx)

theorem popMax_length (l : List ScoredDoc) (m : ScoredDoc) (rest : List ScoredDoc)
    (h : popMax l = some (m, rest)) : rest.length + 1 = l.length := by
  have hlen := (popMax_perm l m rest h).length_eq
  simp at hlen
  omega

/-- The `update_best_doc` loop of `BucketCollector`: while the heap holds
more than one element, re-adjust the current maximum against the current
bucket counts; stop as soon as the maximum's adjusted score is unchanged.
The Rust loop terminates because re-adjusting an already re-adjusted
document is a no-op, so one fuel unit per heap element plus one always
suffices; the model takes fuel explicitly. -/
def updateBestDoc (cfg : CollectorConfig) (b : Nat → Nat) :
    Nat → List ScoredDoc → List ScoredDoc
  | 0, l => l
  | fuel + 1, l =>
    if l.length ≤ 1 then l
    else
      match popMax l with
      | none => l
      | some (m, rest) =>
        let m2 := adjustScore cfg b m.doc
        if m2.adjusted_score = m.adjusted_score then l
        else updateBestDoc cfg b fuel (m2 :: rest)

theorem updateBestDoc_docs_perm (cfg : CollectorConfig) (b : Nat → Nat)
    (fuel : Nat) (l : List ScoredDoc) :
    List.Perm ((updateBestDoc cfg b fuel l).map (·.doc)) (l.map (·.doc)) := by
  induction fuel generalizing l with
  | zero => simp [updateBestDoc]
  | succ n ih =>
    simp only [updateBestDoc]
    split
    · exact List.Perm.refl _
    · cases hp : popMax l with
      | none => exact List.Perm.refl _
      | some p =>
        obtain ⟨m, rest⟩ := p
        simp only
        split
        · exact List.Perm.refl _
        · have hperm := popMax_perm l m rest hp
          have step1 := ih (adjustScore cfg b m.doc :: rest)
          have step2 : ((adjustScore cfg b m.doc :: rest).map (·.doc))
              = (m :: rest).map (·.doc) := by simp [adjustScore]
          have step3 := (hperm.map (·.doc)).symm
          exact List.Perm.trans (step2 ▸ step1) step3

theorem updateBestDoc_length (cfg : CollectorConfig) (b : Nat → Nat)
    (fuel : Nat) (l : List ScoredDoc) :
    (updateBestDoc cfg b fuel l).length = l.length := by
  have hlen := (updateBestDoc_docs_perm cfg b fuel l).length_eq
  simpa using hlen

/-- Stored adjusted scores dominate the value a fresh re-adjustment against
the bucket counts `b` would produce. -/
def StoredDominates (cfg : CollectorConfig) (b : Nat → Nat) (l : List ScoredDoc) : Prop :=
  ∀ d ∈ l, (adjustScore cfg b d.doc).adjusted_score ≤ d.adjusted_score

theorem updateBestDoc_dominates (cfg : CollectorConfig) (b : Nat → Nat)
    (fuel : Nat) (l : List ScoredDoc) (h : StoredDominates cfg b l) :
    StoredDominates cfg b (updateBestDoc cfg b fuel l) := by
  induction fuel generalizing l with
  | zero => simpa [updateBestDoc]
  | succ n ih =>
    simp only [updateBestDoc]
    split
    · exact h
    · cases hp : popMax l with
      | none => exact h
      | some p =>
        obtain ⟨m, rest⟩ := p
        simp only
        split
        · exact h
        · apply ih
          intro d hd
          cases hd with
          | head => exact le_refl _
          | tail _ hmem => exact h d (popMax_subset l m rest hp d hmem)

theorem updateBestDoc_upper_bound (cfg : CollectorConfig) (b : Nat → Nat)
    (fuel : Nat) (l : List ScoredDoc) (B : ℚ)
    (hub : ∀ d ∈ l, d.adjusted_score ≤ B)
    (h : StoredDominates cfg b l) :
    ∀ d ∈ updateBestDoc cfg b fuel l, d.adjusted_score ≤ B := by
  induction fuel generalizing l with
  | zero => simpa [updateBestDoc]
  | succ n ih =>
    simp only [updateBestDoc]
    split
    · exact hub
    · cases hp : popMax l with
      | none => exact hub
      | some p =>
        obtain ⟨m, rest⟩ := p
        simp only
        split
        · exact hub
        · apply ih
          · intro d hd
            cases hd with
            | head =>
              exact le_trans (h m (popMax_mem l m rest hp)) (hub m (popMax_mem l m rest hp))
            | tail _ hmem => exact hub d (popMax_subset l m rest hp d hmem)
          · intro d hd
            cases hd with
            | head => exact le_refl _
            | tail _ hmem => exact h d (popMax_subset l m rest hp d hmem)

/-- Modelled from the spec: `simhash::Table` (the module itself is not among
the provided sources).  The spec describes it as "a small in-memory SimHash
similarity table" into which emitted simhashes are inserted and against
which candidates are tested for presence; the spec's scenarios treat two
documents as similar exactly when their simhash values coincide, so the
model is exact membership in the set of inserted fingerprints. -/
structure SimhashTable where
  items : List Nat
deriving DecidableEq, Repr

def SimhashTable.empty : SimhashTable := { items := [] }

def SimhashTable.memberOf (t : SimhashTable) (h : Nat) : Bool :=
  t.items.contains h

def SimhashTable.insert (t : SimhashTable) (h : Nat) : SimhashTable :=
  { items := h :: t.items }

/-- The local state of `BucketCollector::into_sorted_vec`: the remaining
heap, the bucket counts, the emitted list `res`, the simhash-deferred list
`simhash_dups`, and the simhash table.  `res` and `dups` keep the whole
`ScoredDoc` so that the adjusted score at emission time stays observable;
the Rust code pushes only the document. -/
structure SortState where
  heap : List ScoredDoc
  counts : Nat → Nat
  res : List ScoredDoc
  dups : List ScoredDoc
  table : SimhashTable

/-- One-to-one model of the `while let Some(best_doc) = self.documents.pop_max()`
loop of `into_sorted_vec` (fuel = one unit per popped element; the initial
heap length is always enough).  Control flow mirrors the source:
simhash-deferral check first, then simhash insertion, then (under
`de_rank_similar`) `update_counts` and `update_best_doc`, then emission and
the `res.len() == top_n` break. -/
def sortLoop (cfg : CollectorConfig) (top_n : Nat) (dr : Bool) :
    Nat → SortState → SortState
  | 0, st => st
  | fuel + 1, st =>
    match popMax st.heap with
    | none => st
    | some (best, rest) =>
      if best.doc.hashes.simhash ≠ 0 ∧ dr = true
          ∧ st.table.memberOf best.doc.hashes.simhash = true then
        sortLoop cfg top_n dr fuel
          { st with heap := rest, dups := st.dups ++ [best] }
      else
        let table2 := if best.doc.hashes.simhash ≠ 0 ∧ dr = true then
          st.table.insert best.doc.hashes.simhash else st.table
        let counts2 := if dr then updateCounts st.counts best.doc.hashes else st.counts
        let heap2 := if dr then updateBestDoc cfg counts2 (rest.length + 1) rest else rest
        let res2 := st.res ++ [best]
        let st2 : SortState :=
          { heap := heap2, counts := counts2, res := res2, dups := st.dups, table := table2 }
        if res2.length = top_n then st2 else sortLoop cfg top_n dr fuel st2

/-- `BucketCollector` from `top_docs.rs`: bucket counts plus the document
heap; `new` asserts `top_n > 0`. -/
structure BucketCollector where
  top_n : Nat
  config : CollectorConfig
  counts : Nat → Nat
  documents : List ScoredDoc

/-- `BucketCollector::new(top_n, config)`: `assert!(top_n > 0)` panics on
`top_n == 0`, modelled as `none`; otherwise the collector starts with empty
buckets and an empty heap. -/
def BucketCollector.new (top_n : Nat) (config : CollectorConfig) : Option BucketCollector :=
  if 0 < top_n then
    some { top_n := top_n, config := config, counts := emptyCounts, documents := [] }
  else none

/-- The collector value `new` produces on the non-panicking branch. -/
def freshCollector (top_n : Nat) (config : CollectorConfig) : BucketCollector :=
  { top_n := top_n, config := config, counts := emptyCounts, documents := [] }

/-- `BucketCollector::insert`: adjust the incoming document's score against
the current bucket counts and push it onto the heap. -/
def BucketCollector.insert (c : BucketCollector) (d : SegmentDoc) : BucketCollector :=
  { c with documents := c.documents ++ [adjustScore c.config c.counts d] }

def BucketCollector.insertAll (c : BucketCollector) (docs : List SegmentDoc) : BucketCollector :=
  docs.foldl BucketCollector.insert c

/-- The state `into_sorted_vec` starts its loop from. -/
def initState (c : BucketCollector) : SortState :=
  { heap := c.documents, counts := c.counts, res := [], dups := [], table := SimhashTable.empty }

/-- The loop of `into_sorted_vec`, run to completion. -/
def runSort (c : BucketCollector) (dr : Bool) : SortState :=
  sortLoop c.config c.top_n dr c.documents.length (initState c)

/-- `into_sorted_vec` with emission-time adjusted scores kept visible:
the emitted list `res` topped up with
`simhash_dups.into_iter().take(top_n.saturating_sub(res.len()))`. -/
def intoSortedVecScored (c : BucketCollector) (dr : Bool) : List ScoredDoc :=
  let st := runSort c dr
  st.res ++ st.dups.take (c.top_n - st.res.length)

/-- `BucketCollector::into_sorted_vec`: the emitted documents. -/
def BucketCollector.intoSortedVec (c : BucketCollector) (dr : Bool) : List SegmentDoc :=
  (intoSortedVecScored c dr).map (·.doc)

/-- End-to-end run used by the theorems: insert a list of documents into a
freshly constructed collector and extract, keeping emission scores. -/
def collectorRunState (top_n : Nat) (cfg : CollectorConfig)
    (docs : List SegmentDoc) (dr : Bool) : SortState :=
  runSort ((freshCollector top_n cfg).insertAll docs) dr

def collectorEmitted (top_n : Nat) (cfg : CollectorConfig)
    (docs : List SegmentDoc) (dr : Bool) : List ScoredDoc :=
  intoSortedVecScored ((freshCollector top_n cfg).insertAll docs) dr

def collectorOutput (top_n : Nat) (cfg : CollectorConfig)
    (docs : List SegmentDoc) (dr : Bool) : List SegmentDoc :=
  ((freshCollector top_n cfg).insertAll docs).intoSortedVec dr

/-- A collector configuration with the shape of the defaults (small positive
penalties), used to replay the repository's own collector unit tests. -/
def testCfg : CollectorConfig :=
  { site_penalty := 1/10, title_penalty := 1/10, url_penalty := 1/10,
    url_without_tld_penalty := 1/10, max_docs_considered := 1000 }

def mkDoc (s t u w sh : Nat) (id : Nat) (sc : ℚ) : SegmentDoc :=
  { hashes := { site := s, title := t, url := u, url_without_tld := w, simhash := sh },
    id := id, segment := 0, score := sc }

/-- Sanity check: the model reproduces the `all_different` unit test of
`top_docs.rs`. -/
theorem model_replays_all_different : (collectorOutput 3 testCfg
    [mkDoc 1 1 1 1 12 123 1, mkDoc 2 2 2 2 123 124 2, mkDoc 3 3 3 3 1234 125 3,
     mkDoc 4 4 4 4 12345 126 4, mkDoc 5 5 5 5 123456 127 5] true).map
      (fun d => (d.score, d.id)) = [(5, 127), (4, 126), (3, 125)] := by
  norm_num [collectorOutput, BucketCollector.intoSortedVec, intoSortedVecScored,
    collectorRunState, runSort, initState, freshCollector, BucketCollector.insertAll,
    BucketCollector.insert, sortLoop, popMax, updateBestDoc, adjustScore, penaltySum,
    updateCounts, bumpKey, emptyCounts, SimhashTable.memberOf, SimhashTable.insert,
    SimhashTable.empty, mkDoc, testCfg]

/-- Sanity check: the model reproduces `same_key_de_prioritised` (both the
`top_n = 10` and the `top_n = 2` runs) of `top_docs.rs`. -/
theorem model_replays_same_key : ((collectorOutput 10 testCfg
    [mkDoc 1 1 1 1 12 125 3, mkDoc 2 2 2 2 123 126 (31/10), mkDoc 2 2 2 2 1234 127 5] true).map
      (fun d => (d.score, d.id)) = [(5, 127), (3, 125), (31/10, 126)])
    ∧ ((collectorOutput 2 testCfg
    [mkDoc 1 1 1 1 12 125 3, mkDoc 2 2 2 2 123 126 (31/10), mkDoc 2 2 2 2 1234 127 5] true).map
      (fun d => (d.score, d.id)) = [(5, 127), (3, 125)]) := by
  constructor <;>
  norm_num [collectorOutput, BucketCollector.intoSortedVec, intoSortedVecScored,
    collectorRunState, runSort, initState, freshCollector, BucketCollector.insertAll,
    BucketCollector.insert, sortLoop, popMax, updateBestDoc, adjustScore, penaltySum,
    updateCounts, bumpKey, emptyCounts, SimhashTable.memberOf, SimhashTable.insert,
    SimhashTable.empty, mkDoc, testCfg]

/-- Sanity check: the model reproduces the `simhash_dedup` unit test of
`top_docs.rs`. -/
theorem model_replays_simhash_dedup : (collectorOutput 10 testCfg
    [mkDoc 1 1 1 1 1234 125 3, mkDoc 2 2 2 2 1234 126 (31/10), mkDoc 3 3 3 3 1 127 5] true).map
      (fun d => (d.score, d.id)) = [(5, 127), (31/10, 126), (3, 125)] := by
  norm_num [collectorOutput, BucketCollector.intoSortedVec, intoSortedVecScored,
    collectorRunState, runSort, initState, freshCollector, BucketCollector.insertAll,
    BucketCollector.insert, sortLoop, popMax, updateBestDoc, adjustScore, penaltySum,
    updateCounts, bumpKey, emptyCounts, SimhashTable.memberOf, SimhashTable.insert,
    SimhashTable.empty, mkDoc, testCfg]

/-- The documents of a scored list, as a multiset (emission order and
adjusted scores forgotten). -/
def docsMS (l : List ScoredDoc) : Multiset SegmentDoc :=
  ((l.map (·.doc) : List SegmentDoc) : Multiset SegmentDoc)

theorem docsMS_append (l₁ l₂ : List ScoredDoc) :
    docsMS (l₁ ++ l₂) = docsMS l₁ + docsMS l₂ := by
  simp [docsMS]

theorem docsMS_of_perm (l₁ l₂ : List ScoredDoc)
    (h : List.Perm (l₁.map (·.doc)) (l₂.map (·.doc))) : docsMS l₁ = docsMS l₂ :=
  Multiset.coe_eq_coe.mpr h

theorem popMax_docsMS (l : List ScoredDoc) (m : ScoredDoc) (rest : List ScoredDoc)
    (h : popMax l = some (m, rest)) : docsMS l = m.doc ::ₘ docsMS rest := by
  have hperm := (popMax_perm l m rest h).map (·.doc)
  have := Multiset.coe_eq_coe.mpr hperm
  simpa [docsMS] using this

theorem updateBestDoc_docsMS (cfg : CollectorConfig) (b : Nat → Nat)
    (fuel : Nat) (l : List ScoredDoc) :
    docsMS (updateBestDoc cfg b fuel l) = docsMS l :=
  docsMS_of_perm _ _ (updateBestDoc_docs_perm cfg b fuel l)

/-- Documents of a deferral-or-emission run are conserved: the multiset of
documents in heap, emitted list and deferred list is a loop invariant. -/
theorem docsMS_singleton (d : ScoredDoc) : docsMS [d] = {d.doc} := by
  simp [docsMS]

/-- Documents of a deferral-or-emission run are conserved: the multiset of
documents in heap, emitted list and deferred list is a loop invariant. -/
theorem sortLoop_docs_conserved (cfg : CollectorConfig) (n : Nat) (dr : Bool) :
    ∀ (fuel : Nat) (st : SortState),
      docsMS (sortLoop cfg n dr fuel st).heap + docsMS (sortLoop cfg n dr fuel st).res
          + docsMS (sortLoop cfg n dr fuel st).dups
        = docsMS st.heap + docsMS st.res + docsMS st.dups := by
  intro fuel
  induction fuel with
  | zero => intro st; rfl
  | succ f ih =>
    intro st
    simp only [sortLoop]
    cases hp : popMax st.heap with
    | none => rfl
    | some p =>
      obtain ⟨best, rest⟩ := p
      simp only
      have hpop := popMax_docsMS st.heap best rest hp
      have hsing : best.doc ::ₘ docsMS rest = {best.doc} + docsMS rest :=
        (Multiset.singleton_add best.doc (docsMS rest)).symm
      split
      · rw [ih]
        simp only [docsMS_append, docsMS_singleton, hpop, hsing]
        abel
      · have hheap : ∀ (c : Nat → Nat),
            docsMS (if dr = true then updateBestDoc cfg c (rest.length + 1) rest else rest)
              = docsMS rest := by
          intro c
          split
          · exact updateBestDoc_docsMS cfg c (rest.length + 1) rest
          · rfl
        split
        · simp only [hheap, docsMS_append, docsMS_singleton, hpop, hsing]
          abel
        · rw [ih]
          simp only [hheap, docsMS_append, docsMS_singleton, hpop, hsing]
          abel

/-- Every simhash-deferred document has a non-zero simhash: the deferral
branch of `into_sorted_vec` is guarded by `hashes.simhash != 0`. -/
theorem sortLoop_dups_nonzero (cfg : CollectorConfig) (n : Nat) (dr : Bool) :
    ∀ (fuel : Nat) (st : SortState),
      (∀ d ∈ st.dups, d.doc.hashes.simhash ≠ 0) →
      ∀ d ∈ (sortLoop cfg n dr fuel st).dups, d.doc.hashes.simhash ≠ 0 := by
  intro fuel
  induction fuel with
  | zero => intro st h; exact h
  | succ f ih =>
    intro st h
    simp only [sortLoop]
    cases hp : popMax st.heap with
    | none => exact h
    | some p =>
      obtain ⟨best, rest⟩ := p
      simp only
      split
      next hcond =>
        apply ih
        intro d hd
        rw [List.mem_append] at hd
        cases hd with
        | inl h1 => exact h d h1
        | inr h2 =>
          rw [List.mem_singleton] at h2
          rw [h2]
          exact hcond.1
      next hcond =>
        split
        · exact h
        · exact ih _ h

/-- The emitted list never exceeds `top_n` entries (given that it starts
strictly below `top_n`): the loop breaks at `res.len() == top_n`. -/
theorem sortLoop_res_le (cfg : CollectorConfig) (n : Nat) (dr : Bool) :
    ∀ (fuel : Nat) (st : SortState),
      st.res.length < n → (sortLoop cfg n dr fuel st).res.length ≤ n := by
  intro fuel
  induction fuel with
  | zero => intro st h; exact le_of_lt h
  | succ f ih =>
    intro st h
    simp only [sortLoop]
    cases hp : popMax st.heap with
    | none => exact le_of_lt h
    | some p =>
      obtain ⟨best, rest⟩ := p
      simp only
      split
      · exact ih _ h
      · split
        next heq =>
          simp only [List.length_append, List.length_singleton] at heq ⊢
          omega
        next hne =>
          apply ih
          simp only [List.length_append, List.length_singleton] at hne ⊢
          omega

/-- All four duplicate-bucket penalties of a configuration are nonnegative
(true of the shipped defaults, which are small positive floats). -/
def NonnegPenalties (cfg : CollectorConfig) : Prop :=
  0 ≤ cfg.site_penalty ∧ 0 ≤ cfg.title_penalty ∧ 0 ≤ cfg.url_penalty
    ∧ 0 ≤ cfg.url_without_tld_penalty

theorem penaltySum_nonneg (cfg : CollectorConfig) (hcfg : NonnegPenalties cfg)
    (b : Nat → Nat) (h : Hashes) : 0 ≤ penaltySum cfg b h := by
  obtain ⟨h1, h2, h3, h4⟩ := hcfg
  unfold penaltySum
  have n1 : (0:ℚ) ≤ (b h.site : ℚ) := by positivity
  have n2 : (0:ℚ) ≤ (b h.url : ℚ) := by positivity
  have n3 : (0:ℚ) ≤ (b h.url_without_tld : ℚ) := by positivity
  have n4 : (0:ℚ) ≤ (b h.title : ℚ) := by positivity
  have := mul_nonneg n1 h1
  have := mul_nonneg n2 h3
  have := mul_nonneg n3 h4
  have := mul_nonneg n4 h2
  linarith

theorem penaltySum_mono (cfg : CollectorConfig) (hcfg : NonnegPenalties cfg)
    (b b2 : Nat → Nat) (hb : ∀ k, b k ≤ b2 k) (h : Hashes) :
    penaltySum cfg b h ≤ penaltySum cfg b2 h := by
  obtain ⟨h1, h2, h3, h4⟩ := hcfg
  unfold penaltySum
  have c1 : ((b h.site : ℚ)) ≤ (b2 h.site : ℚ) := by exact_mod_cast hb h.site
  have c2 : ((b h.url : ℚ)) ≤ (b2 h.url : ℚ) := by exact_mod_cast hb h.url
  have c3 : ((b h.url_without_tld : ℚ)) ≤ (b2 h.url_without_tld : ℚ) := by
    exact_mod_cast hb h.url_without_tld
  have c4 : ((b h.title : ℚ)) ≤ (b2 h.title : ℚ) := by exact_mod_cast hb h.title
  have := mul_le_mul_of_nonneg_right c1 h1
  have := mul_le_mul_of_nonneg_right c2 h3
  have := mul_le_mul_of_nonneg_right c3 h4
  have := mul_le_mul_of_nonneg_right c4 h2
  linarith

/-- With nonnegative penalties and a nonnegative raw score, growing the
bucket counts can only lower the freshly adjusted score. -/
theorem adjustScore_antitone (cfg : CollectorConfig) (hcfg : NonnegPenalties cfg)
    (b b2 : Nat → Nat) (hb : ∀ k, b k ≤ b2 k) (d : SegmentDoc) (hd : 0 ≤ d.score) :
    (adjustScore cfg b2 d).adjusted_score ≤ (adjustScore cfg b d).adjusted_score := by
  unfold adjustScore
  simp only
  have hS : 0 ≤ penaltySum cfg b d.hashes := penaltySum_nonneg cfg hcfg b d.hashes
  have hpos : (0:ℚ) < 1 + penaltySum cfg b d.hashes := by linarith
  have hle : 1 + penaltySum cfg b d.hashes ≤ 1 + penaltySum cfg b2 d.hashes := by
    have := penaltySum_mono cfg hcfg b b2 hb d.hashes
    linarith
  have hdiv : 1 / (1 + penaltySum cfg b2 d.hashes) ≤ 1 / (1 + penaltySum cfg b d.hashes) :=
    one_div_le_one_div_of_le hpos hle
  exact mul_le_mul_of_nonneg_left hdiv hd

theorem updateCounts_le (b : Nat → Nat) (h : Hashes) (k : Nat) :
    b k ≤ updateCounts b h k := by
  rw [updateCounts_apply]
  omega

/-- All heap entries stand for documents with nonnegative raw score. -/
def HeapNonneg (st : SortState) : Prop := ∀ d ∈ st.heap, 0 ≤ d.doc.score

/-- Every heap entry's stored adjusted score is at most every emitted
document's emission-time adjusted score. -/
def HeapBelowRes (st : SortState) : Prop :=
  ∀ d ∈ st.heap, ∀ r ∈ st.res, d.adjusted_score ≤ r.adjusted_score

/-- The emitted list is non-increasing in emission-time adjusted score. -/
def ResDescending (st : SortState) : Prop :=
  List.Pairwise (fun a b => b.adjusted_score ≤ a.adjusted_score) st.res

theorem dominates_of_counts_le (cfg : CollectorConfig) (hcfg : NonnegPenalties cfg)
    (b b2 : Nat → Nat) (hb : ∀ k, b k ≤ b2 k) (l : List ScoredDoc)
    (hsc : ∀ d ∈ l, 0 ≤ d.doc.score) (h : StoredDominates cfg b l) :
    StoredDominates cfg b2 l := by
  intro d hd
  exact le_trans (adjustScore_antitone cfg hcfg b b2 hb d.doc (hsc d hd)) (h d hd)

theorem nonneg_of_docs_perm (l₁ l₂ : List ScoredDoc)
    (h : List.Perm (l₁.map (·.doc)) (l₂.map (·.doc)))
    (hp : ∀ x ∈ l₂, 0 ≤ x.doc.score) : ∀ x ∈ l₁, 0 ≤ x.doc.score := by
  intro x hx
  have hmem : x.doc ∈ l₂.map (·.doc) := h.subset (List.mem_map_of_mem _ hx)
  obtain ⟨y, hy, he⟩ := List.mem_map.mp hmem
  rw [← he]
  exact hp y hy

/-- The loop invariant for the de-ranking extraction: stored scores dominate
fresh re-adjustments, heap scores are nonnegative, every heap entry sits at
or below every emitted entry, and the emitted list is non-increasing. -/
def SortInv (cfg : CollectorConfig) (st : SortState) : Prop :=
  StoredDominates cfg st.counts st.heap ∧ HeapNonneg st ∧ HeapBelowRes st ∧ ResDescending st

theorem emit_inv (cfg : CollectorConfig) (hcfg : NonnegPenalties cfg)
    (st st2 : SortState) (best : ScoredDoc) (rest : List ScoredDoc)
    (hp : popMax st.heap = some (best, rest))
    (hheap : st2.heap
      = updateBestDoc cfg (updateCounts st.counts best.doc.hashes) (rest.length + 1) rest)
    (hcounts : st2.counts = updateCounts st.counts best.doc.hashes)
    (hres : st2.res = st.res ++ [best])
    (hinv : SortInv cfg st) : SortInv cfg st2 := by
  obtain ⟨hdom, hnn, hbr, hdesc⟩ := hinv
  have hbestmem := popMax_mem _ _ _ hp
  have hsub := popMax_subset _ _ _ hp
  have hrest_nn : ∀ d ∈ rest, 0 ≤ d.doc.score := fun d hd => hnn d (hsub d hd)
  have hb : ∀ k, st.counts k ≤ updateCounts st.counts best.doc.hashes k :=
    fun k => updateCounts_le _ _ k
  have hdom_rest : StoredDominates cfg st.counts rest := fun d hd => hdom d (hsub d hd)
  have hdom2 : StoredDominates cfg (updateCounts st.counts best.doc.hashes) rest :=
    dominates_of_counts_le cfg hcfg _ _ hb rest hrest_nn hdom_rest
  have hub0 : ∀ d ∈ rest, d.adjusted_score ≤ best.adjusted_score := popMax_le _ _ _ hp
  have hub : ∀ d ∈ st2.heap, d.adjusted_score ≤ best.adjusted_score := by
    rw [hheap]
    exact updateBestDoc_upper_bound cfg _ _ rest _ hub0 hdom2
  refine ⟨?_, ?_, ?_, ?_⟩
  · rw [hcounts, hheap]
    exact updateBestDoc_dominates cfg _ _ rest hdom2
  · intro d hd
    rw [hheap] at hd
    exact nonneg_of_docs_perm _ rest (updateBestDoc_docs_perm cfg _ _ rest) hrest_nn d hd
  · intro d hd r hr
    rw [hres] at hr
    rw [List.mem_append] at hr
    cases hr with
    | inl hr1 => exact le_trans (hub d hd) (hbr best hbestmem r hr1)
    | inr hr2 =>
      rw [List.mem_singleton] at hr2
      rw [hr2]
      exact hub d hd
  · unfold ResDescending
    rw [hres, List.pairwise_append]
    refine ⟨hdesc, List.pairwise_singleton _ _, ?_⟩
    intro a ha b hb2
    rw [List.mem_singleton] at hb2
    rw [hb2]
    exact hbr best hbestmem a ha

/-- The sort invariant survives the whole extraction loop when
`de_rank_similar` is set and penalties are nonnegative. -/
theorem sortLoop_true_inv (cfg : CollectorConfig) (hcfg : NonnegPenalties cfg) (n : Nat) :
    ∀ (fuel : Nat) (st : SortState),
      SortInv cfg st → SortInv cfg (sortLoop cfg n true fuel st) := by
  intro fuel
  induction fuel with
  | zero => intro st h; exact h
  | succ f ih =>
    intro st h
    simp only [sortLoop, eq_self_iff_true, and_true, true_and, if_true]
    cases hp : popMax st.heap with
    | none => exact h
    | some p =>
      obtain ⟨best, rest⟩ := p
      simp only
      obtain ⟨hdom, hnn, hbr, hdesc⟩ := h
      split
      · -- simhash deferral: heap shrinks, nothing else that the invariant
        -- watches changes
        apply ih
        refine ⟨?_, ?_, ?_, hdesc⟩
        · intro d hd
          exact hdom d (popMax_subset _ _ _ hp d hd)
        · intro d hd
          exact hnn d (popMax_subset _ _ _ hp d hd)
        · intro d hd r hr
          exact hbr d (popMax_subset _ _ _ hp d hd) r hr
      · have hst2 := emit_inv cfg hcfg st
          { heap := updateBestDoc cfg (updateCounts st.counts best.doc.hashes)
              (rest.length + 1) rest,
            counts := updateCounts st.counts best.doc.hashes,
            res := st.res ++ [best], dups := st.dups,
            table := if best.doc.hashes.simhash ≠ 0 then
              st.table.insert best.doc.hashes.simhash else st.table }
          best rest hp rfl rfl rfl ⟨hdom, hnn, hbr, hdesc⟩
        split
        · exact hst2
        · exact ih _ hst2

theorem insertAll_spec (c : BucketCollector) (docs : List SegmentDoc) :
    (c.insertAll docs).documents = c.documents ++ docs.map (adjustScore c.config c.counts)
    ∧ (c.insertAll docs).counts = c.counts
    ∧ (c.insertAll docs).config = c.config
    ∧ (c.insertAll docs).top_n = c.top_n := by
  induction docs generalizing c with
  | nil => simp [BucketCollector.insertAll]
  | cons d ds ih =>
    have hstep : c.insertAll (d :: ds) = (c.insert d).insertAll ds := rfl
    have hins : (c.insert d).documents = c.documents ++ [adjustScore c.config c.counts d] := rfl
    have hc : (c.insert d).counts = c.counts := rfl
    have hcfg : (c.insert d).config = c.config := rfl
    have htn : (c.insert d).top_n = c.top_n := rfl
    obtain ⟨i1, i2, i3, i4⟩ := ih (c.insert d)
    rw [hstep]
    refine ⟨?_, by rw [i2, hc], by rw [i3, hcfg], by rw [i4, htn]⟩
    rw [i1, hins, hc, hcfg]
    simp

/-- The state `into_sorted_vec` starts from, for a freshly constructed
collector that absorbed `docs`: the heap holds each document adjusted
against empty bucket counts (hence at its raw score), nothing emitted. -/
theorem collector_init_inv (n : Nat) (cfg : CollectorConfig) (docs : List SegmentDoc)
    (hnn : ∀ d ∈ docs, 0 ≤ d.score) :
    SortInv cfg (initState ((freshCollector n cfg).insertAll docs)) := by
  obtain ⟨i1, i2, i3, i4⟩ := insertAll_spec (freshCollector n cfg) docs
  have hdocs : ((freshCollector n cfg).insertAll docs).documents
      = docs.map (adjustScore cfg emptyCounts) := by
    rw [i1]
    simp [freshCollector]
  have hcounts : ((freshCollector n cfg).insertAll docs).counts = emptyCounts := by
    rw [i2]
    rfl
  refine ⟨?_, ?_, ?_, ?_⟩
  · intro d hd
    simp only [initState, hdocs, hcounts] at hd ⊢
    obtain ⟨x, _, he⟩ := List.mem_map.mp hd
    rw [← he]
    exact le_refl _
  · intro d hd
    simp only [initState, hdocs] at hd
    obtain ⟨x, hx, he⟩ := List.mem_map.mp hd
    rw [← he]
    exact hnn x hx
  · intro d _ r hr
    simp only [initState, List.not_mem_nil] at hr
  · unfold ResDescending
    simp [initState]

theorem runSort_eq (n : Nat) (cfg : CollectorConfig) (docs : List SegmentDoc) (dr : Bool) :
    collectorRunState n cfg docs dr
      = sortLoop cfg n dr ((freshCollector n cfg).insertAll docs).documents.length
          (initState ((freshCollector n cfg).insertAll docs)) := by
  obtain ⟨i1, i2, i3, i4⟩ := insertAll_spec (freshCollector n cfg) docs
  unfold collectorRunState runSort
  rw [i3, i4]
  rfl

/-- C2 — The bucket collector emits at most `top_n` documents for either
value of `de_rank_similar`; and when `de_rank_similar` is set, penalties
are nonnegative and raw scores are nonnegative, the adjusted scores at
emission time of the main-loop emissions (the simhash-deferred backfill
excluded) are non-increasing — in particular, of two such emissions sharing
any bucket hash the later one never scores above the earlier one. -/
theorem bucket_collector_top_n_and_order (cfg : CollectorConfig) (n : Nat)
    (docs : List SegmentDoc) (dr : Bool) (h : 0 < n) :
    (collectorEmitted n cfg docs dr).length ≤ n
    ∧ (dr = true → NonnegPenalties cfg → (∀ d ∈ docs, 0 ≤ d.score) →
        ResDescending (collectorRunState n cfg docs dr)) := by
  obtain ⟨i1, i2, i3, i4⟩ := insertAll_spec (freshCollector n cfg) docs
  have hres : (collectorRunState n cfg docs dr).res.length ≤ n := by
    rw [runSort_eq]
    apply sortLoop_res_le
    simpa [initState] using h
  constructor
  · have hemit : collectorEmitted n cfg docs dr
        = (collectorRunState n cfg docs dr).res
          ++ (collectorRunState n cfg docs dr).dups.take
              (n - (collectorRunState n cfg docs dr).res.length) := by
      unfold collectorEmitted intoSortedVecScored collectorRunState
      rw [i4]
      rfl
    rw [hemit]
    rw [List.length_append, List.length_take]
    omega
  · intro hdr hcfg hnn
    subst hdr
    rw [runSort_eq]
    exact (sortLoop_true_inv cfg hcfg n _ _ (collector_init_inv n cfg docs hnn)).2.2.2

/-- Witness for C2 at a concrete input. -/
theorem bucket_collector_top_n_and_order_witness :
    0 < 1
    ∧ ((collectorEmitted 1 testCfg [mkDoc 1 2 3 4 5 0 2] true).length ≤ 1
      ∧ (true = true → NonnegPenalties testCfg → (∀ d ∈ [mkDoc 1 2 3 4 5 0 2], 0 ≤ d.score) →
          ResDescending (collectorRunState 1 testCfg [mkDoc 1 2 3 4 5 0 2] true))) :=
  ⟨by decide, bucket_collector_top_n_and_order testCfg 1 [mkDoc 1 2 3 4 5 0 2] true (by decide)⟩

/-- Counterexample to C2 as stated: with `de_rank_similar` set, a document
deferred by the simhash filter is appended from the backfill after a
lower-scored document that shares its (non-zero) site hash.  Of the three
inputs, doc 0 (score 10, simhash 7) is emitted first; doc 1 (score 9,
simhash 7, site 50) is deferred as a simhash duplicate; doc 2 (score 3,
simhash 8, site 50) is emitted second; the backfill then emits doc 1 third
with adjusted score 9 > 3, although it shares site hash 50 ≠ 0 with doc 2.  -/
theorem bucket_collector_order_counterexample :
    ((collectorEmitted 3 testCfg
        [mkDoc 100 103 101 102 7 0 10, mkDoc 50 113 111 112 7 1 9, mkDoc 50 123 121 122 8 2 3]
        true).map (fun d => (d.adjusted_score, d.doc.hashes.site))
      = [(10, 100), (3, 50), (9, 50)])
    ∧ (50 ≠ 0) ∧ ¬ ((9:ℚ) ≤ 3) := by
  refine ⟨?_, by norm_num, by norm_num⟩
  norm_num [collectorEmitted, intoSortedVecScored,
    runSort, initState, freshCollector, BucketCollector.insertAll,
    BucketCollector.insert, sortLoop, popMax, updateBestDoc, adjustScore, penaltySum,
    updateCounts, bumpKey, emptyCounts, SimhashTable.memberOf, SimhashTable.insert,
    SimhashTable.empty, mkDoc, testCfg]

theorem penaltySum_empty (cfg : CollectorConfig) (h : Hashes) :
    penaltySum cfg emptyCounts h = 0 := by
  simp [penaltySum, emptyCounts]

theorem adjustScore_empty (cfg : CollectorConfig) (d : SegmentDoc) :
    (adjustScore cfg emptyCounts d).adjusted_score = d.score := by
  simp [adjustScore, penaltySum_empty]

/-- Without `de_rank_similar` the extraction loop is a pure selection sort:
no deferral, no count updates, no re-adjustment; the emitted list is the
`min top_n heap` largest stored scores in non-increasing order. -/
theorem sortLoop_false_spec (cfg : CollectorConfig) (n : Nat) :
    ∀ (fuel : Nat) (st : SortState),
      st.heap.length ≤ fuel → st.res.length < n →
      (∀ d ∈ st.heap, d.adjusted_score = d.doc.score) →
      (∀ d ∈ st.res, d.adjusted_score = d.doc.score) →
      HeapBelowRes st → ResDescending st →
      (sortLoop cfg n false fuel st).res.length = min n (st.res.length + st.heap.length)
      ∧ (sortLoop cfg n false fuel st).dups = st.dups
      ∧ (sortLoop cfg n false fuel st).counts = st.counts
      ∧ (∀ d ∈ (sortLoop cfg n false fuel st).heap, d.adjusted_score = d.doc.score)
      ∧ (∀ d ∈ (sortLoop cfg n false fuel st).res, d.adjusted_score = d.doc.score)
      ∧ HeapBelowRes (sortLoop cfg n false fuel st)
      ∧ ResDescending (sortLoop cfg n false fuel st) := by
  intro fuel
  induction fuel with
  | zero =>
    intro st hfuel hlt hhe hre hbr hdesc
    have hnil : st.heap = [] := List.length_eq_zero.mp (Nat.le_zero.mp hfuel)
    have hred : sortLoop cfg n false 0 st = st := rfl
    rw [hred]
    refine ⟨?_, rfl, rfl, hhe, hre, hbr, hdesc⟩
    rw [hnil]
    simp
    omega
  | succ f ih =>
    intro st hfuel hlt hhe hre hbr hdesc
    cases hp : popMax st.heap with
    | none =>
      have hnil : st.heap = [] := popMax_eq_none st.heap hp
      have hred : sortLoop cfg n false (f + 1) st = st := by
        simp only [sortLoop, hp]
      rw [hred]
      refine ⟨?_, rfl, rfl, hhe, hre, hbr, hdesc⟩
      rw [hnil]
      simp
      omega
    | some p =>
      obtain ⟨best, rest⟩ := p
      have hred : sortLoop cfg n false (f + 1) st
          = (if (st.res ++ [best]).length = n
              then { heap := rest, counts := st.counts, res := st.res ++ [best], dups := st.dups, table := st.table }
              else sortLoop cfg n false f { heap := rest, counts := st.counts, res := st.res ++ [best], dups := st.dups, table := st.table }) := by
        simp only [sortLoop, hp, Bool.false_eq_true, false_and, and_false, if_false]
      have hlen := popMax_length st.heap best rest hp
      have hbm := popMax_mem st.heap best rest hp
      have hsub := popMax_subset st.heap best rest hp
      have hle := popMax_le st.heap best rest hp
      have hhe2 : ∀ d ∈ rest, d.adjusted_score = d.doc.score :=
        fun d hd => hhe d (hsub d hd)
      have hre2 : ∀ d ∈ st.res ++ [best], d.adjusted_score = d.doc.score := by
        intro d hd
        rw [List.mem_append] at hd
        cases hd with
        | inl h1 => exact hre d h1
        | inr h2 =>
          rw [List.mem_singleton] at h2
          rw [h2]
          exact hhe best hbm
      have hbr2 : ∀ d ∈ rest, ∀ r ∈ st.res ++ [best],
          d.adjusted_score ≤ r.adjusted_score := by
        intro d hd r hr
        rw [List.mem_append] at hr
        cases hr with
        | inl h1 => exact hbr d (hsub d hd) r h1
        | inr h2 =>
          rw [List.mem_singleton] at h2
          rw [h2]
          exact hle d hd
      have hdesc2 : List.Pairwise (fun a b => b.adjusted_score ≤ a.adjusted_score)
          (st.res ++ [best]) := by
        rw [List.pairwise_append]
        refine ⟨hdesc, List.pairwise_singleton _ _, ?_⟩
        intro a ha b hb
        rw [List.mem_singleton] at hb
        rw [hb]
        exact hbr best hbm a ha
      rw [hred]
      by_cases hbreak : (st.res ++ [best]).length = n
      · rw [if_pos hbreak]
        simp only [List.length_append, List.length_singleton] at hbreak
        refine ⟨?_, rfl, rfl, hhe2, hre2, hbr2, hdesc2⟩
        simp only [List.length_append, List.length_singleton]
        omega
      · rw [if_neg hbreak]
        simp only [List.length_append, List.length_singleton] at hbreak
        have hcall := ih { heap := rest, counts := st.counts, res := st.res ++ [best], dups := st.dups, table := st.table }
        simp only at hcall
        obtain ⟨r1, r2, r3, r4, r5, r6, r7⟩ := hcall (by omega)
          (by simp only [List.length_append, List.length_singleton]; omega)
          hhe2 hre2 hbr2 hdesc2
        refine ⟨?_, r2, r3, r4, r5, r6, r7⟩
        rw [r1]
        simp only [List.length_append, List.length_singleton]
        omega

/-- The conclusion of claim C7: without `de_rank_similar` the collector
emits exactly the `min top_n docs` highest raw scores in non-increasing raw
score order, conserving documents, with the leftover heap below every
emission, no simhash deferral, and untouched bucket counts. -/
def NoDerankSpec (cfg : CollectorConfig) (n : Nat) (docs : List SegmentDoc) : Prop :=
  (collectorOutput n cfg docs false).length = min n docs.length
  ∧ List.Pairwise (fun a b : SegmentDoc => b.score ≤ a.score) (collectorOutput n cfg docs false)
  ∧ (docs : Multiset SegmentDoc)
      = ↑(collectorOutput n cfg docs false) + docsMS (collectorRunState n cfg docs false).heap
  ∧ (∀ x ∈ (collectorRunState n cfg docs false).heap,
      ∀ a ∈ collectorOutput n cfg docs false, x.doc.score ≤ a.score)
  ∧ (collectorRunState n cfg docs false).dups = []
  ∧ (collectorRunState n cfg docs false).counts = emptyCounts

/-- C7 — with `de_rank_similar = false` the bucket collector returns exactly
the `top_n` highest raw scores in descending order, with no bucket-count or
simhash demotion applied. -/
theorem bucket_collector_no_derank (cfg : CollectorConfig) (n : Nat)
    (docs : List SegmentDoc) (h : 0 < n) : NoDerankSpec cfg n docs := by
  obtain ⟨i1, i2, i3, i4⟩ := insertAll_spec (freshCollector n cfg) docs
  have hdocs : ((freshCollector n cfg).insertAll docs).documents
      = docs.map (adjustScore cfg emptyCounts) := by
    rw [i1]
    simp [freshCollector]
  have hinit : initState ((freshCollector n cfg).insertAll docs)
      = { heap := docs.map (adjustScore cfg emptyCounts), counts := emptyCounts,
          res := [], dups := [], table := SimhashTable.empty } := by
    unfold initState
    rw [hdocs, i2]
    rfl
  have hrun : collectorRunState n cfg docs false
      = sortLoop cfg n false (docs.map (adjustScore cfg emptyCounts)).length
          { heap := docs.map (adjustScore cfg emptyCounts), counts := emptyCounts,
            res := [], dups := [], table := SimhashTable.empty } := by
    rw [runSort_eq, hinit, hdocs]
  obtain ⟨r1, r2, r3, r4, r5, r6, r7⟩ := sortLoop_false_spec cfg n
    (docs.map (adjustScore cfg emptyCounts)).length
    { heap := docs.map (adjustScore cfg emptyCounts), counts := emptyCounts,
      res := [], dups := [], table := SimhashTable.empty }
    (le_refl _) (by simpa using h)
    (by
      intro d hd
      simp only at hd
      obtain ⟨x, _, he⟩ := List.mem_map.mp hd
      rw [← he]
      rw [adjustScore_empty]
      rfl)
    (by intro d hd; simp at hd)
    (by intro d _ r hr; simp at hr)
    (by unfold ResDescending; simp)
  rw [← hrun] at r1 r2 r3 r4 r5 r6 r7
  simp only [List.length_nil, List.length_map, Nat.zero_add] at r1
  have hdupsRS : (runSort ((freshCollector n cfg).insertAll docs) false).dups = [] := r2
  have hout : collectorOutput n cfg docs false
      = (collectorRunState n cfg docs false).res.map (·.doc) := by
    show (((runSort ((freshCollector n cfg).insertAll docs) false).res
        ++ (runSort ((freshCollector n cfg).insertAll docs) false).dups.take
          (((freshCollector n cfg).insertAll docs).top_n
            - (runSort ((freshCollector n cfg).insertAll docs) false).res.length)).map (·.doc))
      = (runSort ((freshCollector n cfg).insertAll docs) false).res.map (·.doc)
    rw [hdupsRS]
    simp
  have hcons := sortLoop_docs_conserved cfg n false
    (docs.map (adjustScore cfg emptyCounts)).length
    { heap := docs.map (adjustScore cfg emptyCounts), counts := emptyCounts,
      res := [], dups := [], table := SimhashTable.empty }
  rw [← hrun] at hcons
  have hbase : docsMS (docs.map (adjustScore cfg emptyCounts)) = (docs : Multiset SegmentDoc) := by
    unfold docsMS
    rw [List.map_map]
    congr 1
    apply List.map_id''
    intro x
    rfl
  have hnilMS : docsMS ([] : List ScoredDoc) = 0 := rfl
  have hms : docsMS (collectorRunState n cfg docs false).heap
      + docsMS (collectorRunState n cfg docs false).res = (docs : Multiset SegmentDoc) := by
    have h0 := hcons
    dsimp only at h0
    rw [r2, hbase, hnilMS] at h0
    simpa using h0
  refine ⟨?_, ?_, ?_, ?_, r2, r3⟩
  · rw [hout, List.length_map, r1]
  · rw [hout, List.pairwise_map]
    apply List.Pairwise.imp_of_mem ?_ r7
    intro a b ha hb hab
    rw [← r5 a ha, ← r5 b hb]
    exact hab
  · rw [hout]
    have hresMS : ((collectorRunState n cfg docs false).res.map (·.doc) : Multiset SegmentDoc)
        = docsMS (collectorRunState n cfg docs false).res := rfl
    rw [hresMS, ← hms]
    exact (add_comm _ _)
  · intro x hx a ha
    rw [hout] at ha
    obtain ⟨r, hr, he⟩ := List.mem_map.mp ha
    rw [← he, ← r5 r hr, ← r4 x hx]
    exact r6 x hx r hr

/-- Witness for C7 at a concrete input. -/
theorem bucket_collector_no_derank_witness :
    0 < 2 ∧ NoDerankSpec testCfg 2 [mkDoc 1 1 1 1 5 0 3, mkDoc 2 2 2 2 6 1 7] :=
  ⟨by decide, bucket_collector_no_derank testCfg 2 _ (by decide)⟩

def mkHashes (s t u w sh : Nat) : Hashes :=
  { site := s, title := t, url := u, url_without_tld := w, simhash := sh }

/-- A configuration with every penalty equal to one (all penalties are
ordinary positive floats, so this is a legal configuration). -/
def unitCfg : CollectorConfig :=
  { site_penalty := 1, title_penalty := 1, url_penalty := 1,
    url_without_tld_penalty := 1, max_docs_considered := 1000 }

/-- C1 (amended) — the adjusted score is the raw score divided by
`1 + Σ_axis n_axis · p_axis`, where `n_axis` is the bucket-map count at the
document's hash on that axis; the single shared bucket map records one
increment per (taken document, axis) pair, so `n_axis` counts axis
increments, not distinct taken documents. -/
theorem adjust_score_shared_map_formula (cfg : CollectorConfig)
    (taken : List Hashes) (d : SegmentDoc) :
    (adjustScore cfg (countsAfter taken) d).adjusted_score
      = d.score / (1
          + ((taken.map (fun h => axisHits h d.hashes.site)).sum : ℚ) * cfg.site_penalty
          + ((taken.map (fun h => axisHits h d.hashes.url)).sum : ℚ) * cfg.url_penalty
          + ((taken.map (fun h => axisHits h d.hashes.url_without_tld)).sum : ℚ)
              * cfg.url_without_tld_penalty
          + ((taken.map (fun h => axisHits h d.hashes.title)).sum : ℚ) * cfg.title_penalty) := by
  unfold adjustScore penaltySum
  simp only
  rw [countsAfter_apply, countsAfter_apply, countsAfter_apply, countsAfter_apply]
  rw [mul_one_div]
  ring_nf

/-- The adjusted score the claim's wording predicts: each count is the
number of already-taken documents sharing the corresponding bucket-hash
key (on any axis). -/
def claimAdjusted (cfg : CollectorConfig) (taken : List Hashes) (d : SegmentDoc) : ℚ :=
  let docsSharing := fun (k : Nat) =>
    ((taken.filter (fun h =>
      decide (h.site = k) || decide (h.url = k)
        || decide (h.url_without_tld = k) || decide (h.title = k))).length : ℚ)
  d.score / (1 + docsSharing d.hashes.site * cfg.site_penalty
    + docsSharing d.hashes.url * cfg.url_penalty
    + docsSharing d.hashes.url_without_tld * cfg.url_without_tld_penalty
    + docsSharing d.hashes.title * cfg.title_penalty)

/-- Counterexample to C1 as stated: one already-taken document whose four
hashes all equal 1 contributes four increments to bucket key 1, so a
candidate whose site hash is 1 is divided by `1 + 4·p_site`-worth of
penalty mass (the code reads the shared map, `1/5` here), not by
`1 + 1·p_site` as the per-document reading predicts (`1/2` here). -/
theorem adjust_score_doc_count_counterexample :
    (adjustScore unitCfg (countsAfter [mkHashes 1 1 1 1 9]) (mkDoc 1 4 2 3 8 0 1)).adjusted_score
        = 1/5
    ∧ claimAdjusted unitCfg [mkHashes 1 1 1 1 9] (mkDoc 1 4 2 3 8 0 1) = 1/2
    ∧ ¬ ((1:ℚ)/5 = 1/2) := by
  refine ⟨?_, ?_, by norm_num⟩
  · norm_num [adjustScore, penaltySum, countsAfter, updateCounts, bumpKey, emptyCounts,
      mkHashes, mkDoc, unitCfg]
  · norm_num [claimAdjusted, mkHashes, mkDoc, unitCfg]

/-- C4 (amended) — only the simhash axis treats 0 as missing: every
simhash-deferred document has a non-zero simhash, for every input, config,
`top_n` and `de_rank_similar` value; by contrast the four prehashed bucket
axes treat key 0 like any other key — `update_counts` increments the bucket
map at the document's site hash (in particular at 0) unconditionally. -/
theorem only_simhash_zero_treated_missing :
    (∀ (cfg : CollectorConfig) (n : Nat) (docs : List SegmentDoc) (dr : Bool),
      ((collectorRunState n cfg docs dr).dups).all
        (fun d => decide (d.doc.hashes.simhash ≠ 0)) = true)
    ∧ (∀ (b : Nat → Nat) (h : Hashes), b h.site < updateCounts b h h.site) := by
  constructor
  · intro cfg n docs dr
    rw [List.all_eq_true]
    intro d hd
    rw [decide_eq_true_eq]
    have hinit : ∀ x ∈ (initState ((freshCollector n cfg).insertAll docs)).dups,
        x.doc.hashes.simhash ≠ 0 := by
      intro x hx
      simp [initState] at hx
    exact sortLoop_dups_nonzero _ _ dr _ _ hinit d hd
  · intro b h
    rw [updateCounts_apply]
    have hge : 1 ≤ axisHits h h.site := by
      unfold axisHits
      split_ifs <;> omega
    omega

/-- Counterexample to C4 as stated: two documents whose only shared bucket
key is the site hash 0.  With all penalties 1, after the first (score 5)
document is taken, the second (raw score 3) is re-adjusted to `3/2` purely
because of the shared zero key, and is demoted below an unrelated document
of score 2; the bucket map really is incremented at key 0. -/
theorem zero_site_hash_demotes_counterexample :
    ((collectorEmitted 3 unitCfg
        [mkDoc 0 12 10 11 1 0 5, mkDoc 0 22 20 21 2 1 3, mkDoc 30 33 31 32 3 2 2]
        true).map (fun d => (d.adjusted_score, d.doc.hashes.site))
      = [(5, 0), (2, 30), (3/2, 0)])
    ∧ updateCounts emptyCounts (mkHashes 0 12 10 11 1) 0 = 1
    ∧ ¬ ((3:ℚ)/2 = 3) := by
  refine ⟨?_, by decide, by norm_num⟩
  norm_num [collectorEmitted, intoSortedVecScored,
    runSort, initState, freshCollector, BucketCollector.insertAll,
    BucketCollector.insert, sortLoop, popMax, updateBestDoc, adjustScore, penaltySum,
    updateCounts, bumpKey, emptyCounts, SimhashTable.memberOf, SimhashTable.insert,
    SimhashTable.empty, mkDoc, unitCfg]

/-- C6 (amended) — the collector's comparison is the trichotomy on adjusted
scores alone: two entries compare equal exactly when their adjusted scores
are equal, regardless of raw score or `(segment_ord, doc_id)`. -/
theorem scored_doc_cmp_eq_iff (a b : ScoredDoc) :
    ScoredDoc.cmpAdj a b = Ordering.eq ↔ a.adjusted_score = b.adjusted_score := by
  unfold ScoredDoc.cmpAdj
  split_ifs with h1 h2
  · constructor
    · intro he
      exact he.elim
    · intro he
      exact absurd he (ne_of_lt h1)
  · simp [h2]
  · constructor
    · intro he
      exact he.elim
    · intro he
      exact absurd he h2

/-- Counterexample to C6 as stated: two entries with equal adjusted scores
but different raw scores and different document addresses compare as equal
— the ordering does not refine ties by raw score or `(segment_ord, doc_id)`
(the claim would require the lower raw score to compare as less-than). -/
theorem scored_doc_cmp_no_tiebreak_counterexample :
    ScoredDoc.cmpAdj { doc := mkDoc 1 1 1 1 1 0 5, adjusted_score := 1 }
        { doc := mkDoc 2 2 2 2 2 1 7, adjusted_score := 1 } = Ordering.eq
    ∧ (mkDoc 1 1 1 1 1 0 5).score < (mkDoc 2 2 2 2 2 1 7).score
    ∧ (mkDoc 1 1 1 1 1 0 5).id ≠ (mkDoc 2 2 2 2 2 1 7).id
    ∧ ¬ (ScoredDoc.cmpAdj { doc := mkDoc 1 1 1 1 1 0 5, adjusted_score := 1 }
        { doc := mkDoc 2 2 2 2 2 1 7, adjusted_score := 1 } = Ordering.lt) := by
  have heq : ScoredDoc.cmpAdj { doc := mkDoc 1 1 1 1 1 0 5, adjusted_score := 1 }
      { doc := mkDoc 2 2 2 2 2 1 7, adjusted_score := 1 } = Ordering.eq := by
    norm_num [ScoredDoc.cmpAdj]
  refine ⟨heq, by norm_num [mkDoc], by norm_num [mkDoc], ?_⟩
  rw [heq]
  decide

/-- C10 — `BucketCollector::new(top_n, config)` asserts `top_n > 0`:
construction with `top_n = 0` hits the assertion (modelled as `none`), and
for every positive `top_n` construction succeeds. -/
theorem bucket_collector_new_assert (top_n : Nat) (cfg : CollectorConfig)
    (h : 0 < top_n) :
    (BucketCollector.new top_n cfg).isSome = true
    ∧ BucketCollector.new 0 cfg = none := by
  constructor
  · unfold BucketCollector.new
    rw [if_pos h]
    rfl
  · unfold BucketCollector.new
    rw [if_neg (lt_irrefl 0)]

/-- Witness for C10 at `top_n = 1`. -/
theorem bucket_collector_new_assert_witness :
    0 < 1 ∧ ((BucketCollector.new 1 unitCfg).isSome = true
      ∧ BucketCollector.new 0 unitCfg = none) :=
  ⟨by decide, bucket_collector_new_assert 1 unitCfg (by decide)⟩

/-- `char::to_ascii_lowercase`: maps `A..Z` to `a..z`; every other
character (including non-ASCII) is unchanged. -/
def asciiLowerChar (c : Char) : Char :=
  if 'A' ≤ c ∧ c ≤ 'Z' then Char.ofNat (c.toNat + 32) else c

/-- `str::to_ascii_lowercase` applied to a query term (written over the
underlying character list so that it evaluates by kernel reduction). -/
def asciiLower (s : String) : String :=
  String.mk (s.data.map asciiLowerChar)

/-- `StoredPrimaryImage` from `webpage/mod.rs` as far as the retrieval
filter observes it: the two term sets (Rust `HashSet<String>`, embedded as
lists queried only through `contains`).  The image's uuid plays no part in
the filter and is omitted. -/
structure StoredPrimaryImage where
  title_terms : List String
  description_terms : List String
deriving DecidableEq, Repr

/-- `RetrievedWebpage` restricted to the field the image-relevance filter
reads and writes; the remaining stored fields pass through
`retrieve_websites` untouched by this filter. -/
structure RetrievedWebpage where
  url : String
  primary_image : Option StoredPrimaryImage
deriving DecidableEq, Repr

/-- The image-relevance filter in `InvertedIndex::retrieve_websites`
(`core/src/inverted_index.rs` lines 241-256): when the document carries a
primary image and NOT every simple query term appears (lower-cased) in the
image's `title_terms` or `description_terms`, the image is dropped. -/
def suppressImage (terms : List String) (page : RetrievedWebpage) : RetrievedWebpage :=
  match page.primary_image with
  | some image =>
    if terms.all (fun t =>
        image.title_terms.contains (asciiLower t)
          || image.description_terms.contains (asciiLower t)) then
      page
    else { page with primary_image := none }
  | none => page

/-- `retrieve_websites` applies the filter to every successfully retrieved
document (snippet generation, which follows, does not touch the image). -/
def retrieveWebsites (terms : List String) (pages : List RetrievedWebpage) :
    List RetrievedWebpage :=
  pages.map (suppressImage terms)

/-- C3 (amended) — a retrieved document's primary image is kept exactly
when EVERY simple query term appears, lower-cased, in the image's title
terms or description terms; if any term is missing the image is suppressed
(`all`-semantics, not the spec's `any`-semantics). -/
theorem primary_image_kept_iff_all_terms (terms : List String)
    (page : RetrievedWebpage) (img : StoredPrimaryImage)
    (h : page.primary_image = some img) :
    (suppressImage terms page).primary_image = some img
      ↔ ∀ t ∈ terms, asciiLower t ∈ img.title_terms ∨ asciiLower t ∈ img.description_terms := by
  have hred : suppressImage terms page
      = (if terms.all (fun t =>
            img.title_terms.contains (asciiLower t)
              || img.description_terms.contains (asciiLower t)) then page
          else { page with primary_image := none }) := by
    unfold suppressImage
    rw [h]
  rw [hred]
  by_cases hall : (terms.all fun t =>
      img.title_terms.contains (asciiLower t)
        || img.description_terms.contains (asciiLower t)) = true
  · rw [if_pos hall]
    rw [List.all_eq_true] at hall
    rw [h]
    simp only [true_iff]
    intro t ht
    have hco := hall t ht
    simpa [List.elem_eq_mem, decide_eq_true_eq] using hco
  · rw [if_neg hall]
    simp only
    constructor
    · intro habs
      exact absurd habs (by simp)
    · intro hforall
      exfalso
      apply hall
      rw [List.all_eq_true]
      intro t ht
      have := hforall t ht
      simpa [List.elem_eq_mem, decide_eq_true_eq] using this

/-- The primary image of the repository's `only_show_primary_images_when_relevant`
test: title terms `{title}`, description terms of the og:description. -/
def testImage : StoredPrimaryImage :=
  { title_terms := ["title"],
    description_terms := ["this", "is", "an", "image", "for", "the", "test", "website"] }

def testPage : RetrievedWebpage :=
  { url := "https://www.example.com", primary_image := some testImage }

/-- Witness for C3: for the single query term `website` the image is kept. -/
theorem primary_image_kept_iff_all_terms_witness :
    testPage.primary_image = some testImage
    ∧ ((suppressImage ["website"] testPage).primary_image = some testImage
      ↔ ∀ t ∈ ["website"], asciiLower t ∈ testImage.title_terms
          ∨ asciiLower t ∈ testImage.description_terms) :=
  ⟨rfl, primary_image_kept_iff_all_terms ["website"] testPage testImage rfl⟩

/-- Counterexample to C3 as stated: the repository's own test queries
`best website` against an image whose terms contain `website` but not
`best`.  At least one query term appears in the union, so the claim says
the image is kept; the code (and the repository's test) suppress it. -/
theorem primary_image_any_term_counterexample :
    (suppressImage ["best", "website"] testPage).primary_image = none
    ∧ asciiLower "website" ∈ testImage.description_terms := by
  constructor
  · decide
  · decide

/-- A segment as the merge planner sees it: its identity and its documents
(`num_docs()` is the document count).  Documents are abstracted to ids. -/
structure IndexSegment where
  segId : Nat
  docs : List Nat
deriving DecidableEq, Repr

/-- `SegmentMergeCandidate` from `core/src/inverted_index.rs`: one merge
bucket, accumulating a document count and the segments assigned to it. -/
structure SegmentMergeCandidate where
  num_docs : Nat
  segments : List IndexSegment
deriving DecidableEq, Repr

def candBump (c : SegmentMergeCandidate) (s : IndexSegment) : SegmentMergeCandidate :=
  { num_docs := c.num_docs + s.docs.length, segments := c.segments ++ [s] }

/-- Greedy worst-fit placement: put the segment into the first candidate of
minimal `num_docs` (Rust `Iterator::min_by` returns the first minimum). -/
def placeSeg : List SegmentMergeCandidate → IndexSegment → List SegmentMergeCandidate
  | [], _ => []
  | c :: cs, s =>
    if cs.all (fun c2 => decide (c.num_docs ≤ c2.num_docs)) then candBump c s :: cs
    else c :: placeSeg cs s

/-- `InvertedIndex::merge_into_max_segments` (`core/src/inverted_index.rs`):
if more than `max_n` segments exist, sort them by descending `num_docs`
(stably), distribute them over `⌈max_n/2⌉` candidates by greedy worst-fit,
and merge each non-empty candidate into a single segment (the merged
segment holds the union of the candidate's documents; tantivy assigns the
fresh segment id, fixed to 0 here). -/
def mergeIntoMaxSegments (maxN : Nat) (segs : List IndexSegment) : List IndexSegment :=
  if segs.length ≤ maxN then segs
  else
    let nBuckets := (maxN + 1) / 2
    let sorted := segs.insertionSort (fun a b => b.docs.length < a.docs.length)
    let start := List.replicate nBuckets ({ num_docs := 0, segments := [] } : SegmentMergeCandidate)
    let buckets := sorted.foldl placeSeg start
    (buckets.filter (fun c => !c.segments.isEmpty)).map
      (fun c => { segId := 0, docs := (c.segments.map (·.docs)).flatten })

/-- The documents of a list of segments, as a multiset. -/
def segsDocs (l : List IndexSegment) : Multiset Nat :=
  (l.map (fun s => (s.docs : Multiset Nat))).sum

/-- The segments distributed over a list of merge candidates, as a multiset. -/
def candSegs (cs : List SegmentMergeCandidate) : Multiset IndexSegment :=
  (cs.map (fun c => (c.segments : Multiset IndexSegment))).sum

/-- The documents of a multiset of segments. -/
def msDocs (m : Multiset IndexSegment) : Multiset Nat :=
  (m.map (fun s => (s.docs : Multiset Nat))).sum

theorem placeSeg_length (cs : List SegmentMergeCandidate) (s : IndexSegment) :
    (placeSeg cs s).length = cs.length := by
  induction cs with
  | nil => rfl
  | cons c cs ih =>
    unfold placeSeg
    split
    · simp
    · simp [ih]

theorem ms_add_singleton_cons (a m : Multiset IndexSegment) (s : IndexSegment) :
    a + {s} + m = s ::ₘ (a + m) := by
  rw [← Multiset.singleton_add s (a + m)]
  abel

theorem ms_add_cons_left (a m : Multiset IndexSegment) (s : IndexSegment) :
    a + (s ::ₘ m) = s ::ₘ (a + m) := by
  rw [← Multiset.singleton_add s m, ← Multiset.singleton_add s (a + m)]
  abel

theorem placeSeg_candSegs (cs : List SegmentMergeCandidate) (s : IndexSegment)
    (h : cs ≠ []) : candSegs (placeSeg cs s) = s ::ₘ candSegs cs := by
  induction cs with
  | nil => exact absurd rfl h
  | cons c cs ih =>
    unfold placeSeg
    split
    next =>
      unfold candSegs candBump
      simp only [List.map_cons, List.sum_cons]
      have happ : ((c.segments ++ [s] : List IndexSegment) : Multiset IndexSegment)
          = (c.segments : Multiset IndexSegment) + {s} := rfl
      rw [happ]
      exact ms_add_singleton_cons _ _ _
    next hcond =>
      have hne : cs ≠ [] := by
        intro hnil
        rw [hnil] at hcond
        simp at hcond
      unfold candSegs
      simp only [List.map_cons, List.sum_cons]
      have hrec := ih hne
      unfold candSegs at hrec
      rw [hrec]
      exact ms_add_cons_left _ _ _

theorem foldl_placeSeg_candSegs (l : List IndexSegment) :
    ∀ (cs : List SegmentMergeCandidate), cs ≠ [] →
      candSegs (l.foldl placeSeg cs) = (l : Multiset IndexSegment) + candSegs cs := by
  induction l with
  | nil => intro cs _; simp
  | cons s l ih =>
    intro cs h
    rw [List.foldl_cons]
    have hne : placeSeg cs s ≠ [] := by
      intro hnil
      have hlen := placeSeg_length cs s
      rw [hnil] at hlen
      cases cs with
      | nil => exact h rfl
      | cons a b => simp at hlen
    rw [ih (placeSeg cs s) hne, placeSeg_candSegs cs s h]
    rw [show ((s :: l : List IndexSegment) : Multiset IndexSegment) = s ::ₘ (l : Multiset IndexSegment) from rfl]
    rw [← Multiset.singleton_add s (l : Multiset IndexSegment),
      ← Multiset.singleton_add s (candSegs cs)]
    abel

theorem filter_nonempty_candSegs (cs : List SegmentMergeCandidate) :
    candSegs (cs.filter (fun c => !c.segments.isEmpty)) = candSegs cs := by
  induction cs with
  | nil => rfl
  | cons c cs ih =>
    rw [List.filter_cons]
    split
    next =>
      unfold candSegs
      simp only [List.map_cons, List.sum_cons]
      unfold candSegs at ih
      rw [ih]
    next hcond =>
      have hnil : c.segments = [] := by
        rw [Bool.not_eq_true, Bool.not_eq_false'] at hcond
        exact List.isEmpty_iff.mp hcond
      unfold candSegs
      simp only [List.map_cons, List.sum_cons, hnil]
      unfold candSegs at ih
      rw [ih]
      simp

theorem msDocs_coe (l : List IndexSegment) :
    msDocs (l : Multiset IndexSegment) = segsDocs l := by
  unfold msDocs segsDocs
  rw [Multiset.map_coe]
  rfl

theorem segsDocs_flatten (c : SegmentMergeCandidate) :
    ((((c.segments.map (·.docs)).flatten : List Nat)) : Multiset Nat) = segsDocs c.segments := by
  unfold segsDocs
  induction c.segments with
  | nil => rfl
  | cons a l ih =>
    simp only [List.map_cons, List.flatten_cons, List.sum_cons]
    rw [← ih]
    rfl

theorem foldl_placeSeg_length (l : List IndexSegment) :
    ∀ (cs : List SegmentMergeCandidate), (l.foldl placeSeg cs).length = cs.length := by
  induction l with
  | nil => intro cs; rfl
  | cons s l ih =>
    intro cs
    rw [List.foldl_cons, ih, placeSeg_length]

theorem msDocs_add (a b : Multiset IndexSegment) : msDocs (a + b) = msDocs a + msDocs b := by
  unfold msDocs
  rw [Multiset.map_add, Multiset.sum_add]

theorem candSegs_replicate (n : Nat) :
    candSegs (List.replicate n ({ num_docs := 0, segments := [] } : SegmentMergeCandidate)) = 0 := by
  induction n with
  | zero => rfl
  | succ m ih =>
    rw [List.replicate_succ]
    unfold candSegs
    simp only [List.map_cons, List.sum_cons]
    unfold candSegs at ih
    rw [ih]
    rfl

theorem candSegs_docs (cs : List SegmentMergeCandidate) :
    (cs.map (fun c => segsDocs c.segments)).sum = msDocs (candSegs cs) := by
  induction cs with
  | nil => rfl
  | cons c cs ih =>
    unfold candSegs
    simp only [List.map_cons, List.sum_cons]
    rw [msDocs_add, msDocs_coe]
    unfold candSegs at ih
    rw [ih]

/-- C5 — `merge_into_max_segments(max_n)` (for `max_n > 0`) leaves at most
`max_n` segments and keeps the multiset of documents unchanged. -/
theorem merge_into_max_segments_spec (maxN : Nat) (segs : List IndexSegment)
    (h : 0 < maxN) :
    (mergeIntoMaxSegments maxN segs).length ≤ maxN
    ∧ segsDocs (mergeIntoMaxSegments maxN segs) = segsDocs segs := by
  unfold mergeIntoMaxSegments
  split
  next hle => exact ⟨hle, rfl⟩
  next hgt =>
    simp only
    have hstart : (List.replicate ((maxN + 1) / 2)
        ({ num_docs := 0, segments := [] } : SegmentMergeCandidate)) ≠ [] := by
      intro hnil
      have hlen := congrArg List.length hnil
      simp at hlen
      omega
    constructor
    · rw [List.length_map]
      calc ((segs.insertionSort (fun a b => b.docs.length < a.docs.length)).foldl placeSeg
            (List.replicate ((maxN + 1) / 2)
              ({ num_docs := 0, segments := [] } : SegmentMergeCandidate))
            |>.filter (fun c => !c.segments.isEmpty)).length
          ≤ ((segs.insertionSort (fun a b => b.docs.length < a.docs.length)).foldl placeSeg
            (List.replicate ((maxN + 1) / 2)
              ({ num_docs := 0, segments := [] } : SegmentMergeCandidate))).length :=
            List.length_filter_le _ _
        _ = (maxN + 1) / 2 := by rw [foldl_placeSeg_length]; simp
        _ ≤ maxN := by omega
    · unfold segsDocs
      rw [List.map_map]
      have hfun : ((fun s : IndexSegment => (s.docs : Multiset Nat))
            ∘ (fun c : SegmentMergeCandidate =>
              { segId := 0, docs := (c.segments.map (·.docs)).flatten }))
          = fun c : SegmentMergeCandidate => segsDocs c.segments := by
        funext c
        exact segsDocs_flatten c
      rw [hfun, candSegs_docs, filter_nonempty_candSegs,
        foldl_placeSeg_candSegs _ _ hstart, candSegs_replicate, add_zero, msDocs_coe]
      have hperm : ((segs.insertionSort (fun a b => b.docs.length < a.docs.length)
            : List IndexSegment) : Multiset IndexSegment) = (segs : Multiset IndexSegment) :=
        Multiset.coe_eq_coe.mpr (List.perm_insertionSort _ segs)
      have hd := congrArg msDocs hperm
      rw [msDocs_coe, msDocs_coe] at hd
      exact hd

/-- Witness for C5: two singleton segments merged down to one. -/
theorem merge_into_max_segments_spec_witness :
    0 < 1
    ∧ ((mergeIntoMaxSegments 1 [{ segId := 1, docs := [10] }, { segId := 2, docs := [20] }]).length ≤ 1
      ∧ segsDocs (mergeIntoMaxSegments 1 [{ segId := 1, docs := [10] }, { segId := 2, docs := [20] }])
          = segsDocs [{ segId := 1, docs := [10] }, { segId := 2, docs := [20] }]) :=
  ⟨by decide, merge_into_max_segments_spec 1 _ (by decide)⟩

/-- A segment entry of `meta.json` as `InvertedIndex::merge` handles it:
its id, its `max_doc`, and the file names `list_files()` reports. -/
structure SegMeta where
  sid : Nat
  maxDoc : Nat
  files : List String
deriving DecidableEq, Repr

/-- The `fs::rename(other_path.join(file), self_path.join(file))` loop of
`merge` for one segment: each file present in the other directory is moved
into the target directory, silently replacing a target file of the same
name (POSIX rename semantics).  Directories are file-name → content maps. -/
def moveSegFiles (selfF otherF : String → Option Nat) (fs : List String) :
    String → Option Nat :=
  fs.foldl (fun acc f =>
    match otherF f with
    | some v => fun g => if g = f then some v else acc g
    | none => acc) selfF

/-- `InvertedIndex::merge` (`core/src/inverted_index.rs` lines 338-395) on
the meta/file level: every other-segment whose id is not already present is
appended to the meta list and its files are renamed into the target
directory; the result meta is sorted by descending `max_doc`.  The source
carries a `TODO: handle case where current index has segment with same
name` and performs no conflict check. -/
def mergeIndexes (selfMeta otherMeta : List SegMeta)
    (selfF otherF : String → Option Nat) : (List SegMeta) × (String → Option Nat) :=
  let ids := selfMeta.map (·.sid)
  let merged := otherMeta.foldl
    (fun (acc : List SegMeta × (String → Option Nat)) (seg : SegMeta) =>
      if seg.sid ∈ ids then acc
      else (acc.1 ++ [seg], moveSegFiles acc.2 otherF seg.files))
    (selfMeta, selfF)
  (merged.1.insertionSort (fun a b => b.maxDoc < a.maxDoc), merged.2)

inductive IndexMergeError where
  | conflict
deriving DecidableEq, Repr

/-- Modelled from the spec: §9 declares that two distinct segments sharing
a filename during `merge` is the *Conflict* error and requires the merge to
abort before any file rename, leaving meta and files unchanged; otherwise
the merge proceeds as the code does. -/
def mergeSpecModel (selfMeta otherMeta : List SegMeta)
    (selfF otherF : String → Option Nat) :
    Except IndexMergeError ((List SegMeta) × (String → Option Nat)) :=
  if otherMeta.any (fun seg =>
      decide (seg.sid ∉ selfMeta.map (·.sid))
        && seg.files.any (fun f => ((selfMeta.map (·.files)).flatten).contains f)) then
    Except.error IndexMergeError.conflict
  else Except.ok (mergeIndexes selfMeta otherMeta selfF otherF)

/-- C8 — the failing input: the target index holds segment 1 with file `a`
(content 10), the other index holds a distinct segment 2 whose file is also
named `a` (content 20).  The code proceeds: it keeps both meta entries
(sorted by `max_doc` descending) and renames `a` over the target's `a`,
silently replacing content 10 with 20; the spec instead requires the merge
to fail with *Conflict* before any rename. -/
theorem merge_filename_collision_overwrites :
    ((mergeIndexes [{ sid := 1, maxDoc := 5, files := ["a"] }]
        [{ sid := 2, maxDoc := 7, files := ["a"] }]
        (fun f => if f = "a" then some 10 else none)
        (fun f => if f = "a" then some 20 else none)).2 "a" = some 20)
    ∧ ((fun f => if f = "a" then some 10 else none) "a" = some 10)
    ∧ ((mergeIndexes [{ sid := 1, maxDoc := 5, files := ["a"] }]
        [{ sid := 2, maxDoc := 7, files := ["a"] }]
        (fun f => if f = "a" then some 10 else none)
        (fun f => if f = "a" then some 20 else none)).1.map (·.sid) = [2, 1])
    ∧ mergeSpecModel [{ sid := 1, maxDoc := 5, files := ["a"] }]
        [{ sid := 2, maxDoc := 7, files := ["a"] }]
        (fun f => if f = "a" then some 10 else none)
        (fun f => if f = "a" then some 20 else none)
      = Except.error IndexMergeError.conflict := by
  refine ⟨by decide, by decide, by decide, by rfl⟩

/-- Modelled from the spec: the DHT shard state machine (the store module
is not among the provided sources; §4.5 describes a replicated mapping to
which committed `set` operations are applied in Raft log order).  A shard's
committed log is the ordered list of `set(k, v)` writes; applying a prefix
folds them into a key → value map. -/
def applyLog (entries : List (Nat × Nat)) : Nat → Option Nat :=
  entries.foldl (fun st e => fun q => if q = e.1 then some e.2 else st q) (fun _ => none)

/-- Modelled from the spec: a `get` served by a node that has applied the
log up to (excluding) index `applied` reads the state machine built from
that prefix. -/
def nodeGet (entries : List (Nat × Nat)) (applied : Nat) (k : Nat) : Option Nat :=
  applyLog (entries.take applied) k

theorem applyLog_append (entries : List (Nat × Nat)) (e : Nat × Nat) (k : Nat) :
    applyLog (entries ++ [e]) k = if k = e.1 then some e.2 else applyLog entries k := by
  unfold applyLog
  rw [List.foldl_append]
  rfl

/-- The state machine holds, for each key, the value of the last applied
`set` of that key: any applied occurrence of the key is superseded only by
a later applied occurrence. -/
theorem applyLog_last_write (entries : List (Nat × Nat)) :
    ∀ (i k v : Nat), entries.get? i = some (k, v) →
      ∃ i2 w, i ≤ i2 ∧ entries.get? i2 = some (k, w) ∧ applyLog entries k = some w := by
  induction entries using List.reverseRecOn with
  | nil => intro i k v h; simp at h
  | append_singleton Q e ih =>
    intro i k v h
    by_cases hk : k = e.1
    · refine ⟨Q.length, e.2, ?_, ?_, ?_⟩
      · obtain ⟨hlt, -⟩ := List.get?_eq_some.mp h
        rw [List.length_append, List.length_singleton] at hlt
        omega
      · rw [List.get?_concat_length]
        rw [hk]
      · rw [applyLog_append, if_pos hk]
    · have hQ : Q.get? i = some (k, v) := by
        obtain ⟨hlt, -⟩ := List.get?_eq_some.mp h
        rw [List.length_append, List.length_singleton] at hlt
        by_cases hi : i < Q.length
        · rw [List.get?_append hi] at h
          exact h
        · have hieq : i = Q.length := by omega
          rw [hieq, List.get?_concat_length] at h
          have he : e = (k, v) := by
            exact Option.some.injEq .. ▸ h
          rw [he] at hk
          exact absurd rfl hk
      obtain ⟨i2, w, h1, h2, h3⟩ := ih i k v hQ
      obtain ⟨hi2, -⟩ := List.get?_eq_some.mp h2
      refine ⟨i2, w, h1, ?_, ?_⟩
      · rw [List.get?_append hi2]
        exact h2
      · rw [applyLog_append, if_neg hk]
        exact h3

/-- C9 — read-your-writes through a linearizing write: if `set(k, v)` is
committed at log index `i`, some later write (the ensure-linearized-read
`set`) is committed at index `j > i`, and the node serving the `get` has
applied the log past `j`, then `get(k)` returns the value of a `set` of `k`
committed at or after index `i` — the written value or a later one. -/
theorem dht_linearized_read (entries : List (Nat × Nat)) (i j applied k v : Nat)
    (h1 : entries.get? i = some (k, v)) (h2 : i < j) (h3 : j < applied)
    (h4 : applied ≤ entries.length) :
    ∃ i2 w, i ≤ i2 ∧ i2 < applied ∧ entries.get? i2 = some (k, w)
      ∧ nodeGet entries applied k = some w := by
  have hi : i < applied := lt_trans h2 h3
  have hP : (entries.take applied).get? i = some (k, v) := by
    rw [List.get?_take hi]
    exact h1
  obtain ⟨i2, w, hle, hget, happ⟩ := applyLog_last_write (entries.take applied) i k v hP
  obtain ⟨hi2, -⟩ := List.get?_eq_some.mp hget
  rw [List.length_take] at hi2
  have hi2a : i2 < applied := lt_of_lt_of_le hi2 (min_le_left _ _)
  refine ⟨i2, w, hle, hi2a, ?_, happ⟩
  rw [← List.get?_take hi2a]
  exact hget

/-- Witness for C9: `set(1, 10)` at index 0, the linearizing write at
index 1, node applied through index 1; the `get` of key 1 returns 10. -/
theorem dht_linearized_read_witness :
    (([(1, 10), (99, 0), (1, 11)] : List (Nat × Nat)).get? 0 = some (1, 10)
      ∧ 0 < 1 ∧ 1 < 2 ∧ 2 ≤ 3)
    ∧ ∃ i2 w, 0 ≤ i2 ∧ i2 < 2
        ∧ ([(1, 10), (99, 0), (1, 11)] : List (Nat × Nat)).get? i2 = some (1, w)
        ∧ nodeGet [(1, 10), (99, 0), (1, 11)] 2 1 = some w :=
  ⟨⟨by decide, by decide, by decide, by decide⟩,
    dht_linearized_read [(1, 10), (99, 0), (1, 11)] 0 1 2 1 10
      (by decide) (by decide) (by decide) (by decide)⟩
